import Mathlib

/-!
Shallow embedding of the rusty-calc core (src/lib.rs): structural validation,
tokenization and two-pass precedence evaluation of arithmetic equations.

Strings are modelled as `List Char`.  The Rust numeric domain `f64` is
modelled by `ℚ`: every arithmetic step appearing in the verified claims is
exact in binary floating point, so the rational semantics agrees with the
Rust one on those inputs.  A Rust `panic!` site (`Vec` indexing out of
bounds, `Option::unwrap` on `None`) is modelled by the `none` outcome of
`Option`, so `evaluate` returns `Option (Except CalcError ℚ)`:
`none` = panic, `some (.error e)` = `Err(e)`, `some (.ok q)` = `Ok(q)`.
-/

namespace RustyCalc

/-- The four operator characters recognised by the calculator
(`matches!(c, '+' | '-' | '*' | '/')` in the source). -/
def isOp (c : Char) : Bool :=
  c == '+' || c == '-' || c == '*' || c == '/'

/-- Rust `char::is_whitespace`: the Unicode White_Space property,
spelled out code point by code point. -/
def isWS (c : Char) : Bool :=
  c == ' ' || c == '\t' || c == '\n' || c == '\x0b' || c == '\x0c' || c == '\r' ||
  c == '\u0085' || c == '\u00A0' || c == '\u1680' ||
  c == '\u2000' || c == '\u2001' || c == '\u2002' || c == '\u2003' ||
  c == '\u2004' || c == '\u2005' || c == '\u2006' || c == '\u2007' ||
  c == '\u2008' || c == '\u2009' || c == '\u200A' ||
  c == '\u2028' || c == '\u2029' || c == '\u202F' || c == '\u205F' || c == '\u3000'

/-- Rust `str::trim`: drop leading and trailing whitespace. -/
def trim (s : List Char) : List Char :=
  ((s.dropWhile isWS).reverse.dropWhile isWS).reverse

/-- The character loop of `validate_equation` (src/lib.rs lines 24-44),
carrying the three mutable flags `prev_was_digit`, `prev_was_operator`
and `valid_structure`; at end of input it returns
`valid_structure && prev_was_digit`. -/
def validateLoop : List Char → Bool → Bool → Bool → Bool
  | [], prevDigit, _, validStructure => validStructure && prevDigit
  | c :: rest, prevDigit, prevOperator, validStructure =>
    if c.isDigit || c == '.' then
      validateLoop rest true false (validStructure || prevOperator)
    else if isOp c then
      if prevDigit then validateLoop rest false true validStructure
      else false
    else if isWS c then validateLoop rest prevDigit prevOperator validStructure
    else false

/-- `validate_equation` (src/lib.rs lines 3-45). -/
def validate_equation (input : List Char) : Bool :=
  let trimmed := trim input
  let hasDigit := trimmed.any Char.isDigit
  let hasOperator := trimmed.any isOp
  if !hasDigit || !hasOperator then false
  else validateLoop trimmed false false false

/-- `extract_operators` (src/lib.rs lines 48-53): filter the characters
down to the four operator characters. -/
def extract_operators (input : List Char) : List Char :=
  input.filter isOp

/-- The buffer loop of `extract_numbers` (src/lib.rs lines 56-75), carrying
`current_number`; a non-digit-non-dot character flushes a non-empty buffer,
and a non-empty buffer is flushed at end of input. -/
def extractLoop : List Char → List Char → List (List Char)
  | [], current => if current.isEmpty then [] else [current]
  | c :: rest, current =>
    if c.isDigit || c == '.' then extractLoop rest (current ++ [c])
    else if current.isEmpty then extractLoop rest current
    else current :: extractLoop rest []

/-- `extract_numbers` (src/lib.rs lines 56-75). -/
def extract_numbers (input : List Char) : List (List Char) :=
  extractLoop input []

/-- Integer value of a digit string, most significant digit first. -/
def digitsVal (l : List Char) : ℕ :=
  l.foldl (fun a c => 10 * a + (c.toNat - 48)) 0

/-- Rust `str::parse::<f64>()` restricted to the strings `extract_numbers`
produces (characters are digits or dots): the parse succeeds iff the string
holds at least one digit and at most one dot, the grammar
`Digit+ | Digit+ '.' Digit* | Digit* '.' Digit+`; the value is taken in ℚ
(exact where every claim needs it). -/
def parseF64 (s : List Char) : Option ℚ :=
  if s.all (fun c => c.isDigit || c == '.') && s.any Char.isDigit &&
      decide (s.countP (fun c => c == '.') ≤ 1) then
    let intPart := s.takeWhile (fun c => c != '.')
    let fracPart := (s.dropWhile (fun c => c != '.')).drop 1
    some (mkRat (digitsVal (intPart ++ fracPart)) (10 ^ fracPart.length))
  else none

/-- The error values `evaluate` can return; in the source each is a distinct
`Err(String)` message. -/
inductive CalcError where
  | invalidFormat
  | invalidNumber (literal : List Char)
  | noNumbers
  | countMismatch
  | divisionByZero
  | unknownOperator (op : Char)
deriving DecidableEq

instance {ε α : Type} [DecidableEq ε] [DecidableEq α] : DecidableEq (Except ε α) := fun x y =>
  match x, y with
  | .error a, .error b =>
    if h : a = b then isTrue (by rw [h])
    else isFalse (fun hc => h (Except.error.inj hc))
  | .ok a, .ok b =>
    if h : a = b then isTrue (by rw [h])
    else isFalse (fun hc => h (Except.ok.inj hc))
  | .error _, .ok _ => isFalse (fun hc => Except.noConfusion hc)
  | .ok _, .error _ => isFalse (fun hc => Except.noConfusion hc)

/-- The number-parsing loop of `evaluate` (src/lib.rs lines 101-107):
parse each literal left to right, stopping at the first failure. -/
def parseAll : List (List Char) → Except CalcError (List ℚ)
  | [] => .ok []
  | s :: rest =>
    match parseF64 s with
    | none => .error (.invalidNumber s)
    | some n =>
      match parseAll rest with
      | .error e => .error e
      | .ok ns => .ok (n :: ns)

/-- Pass 1 of `evaluate` (src/lib.rs lines 117-140): walk the operators with
index `i`, pairing operator `i` with `nums[i+1]`; `*` and `/` fold into the
last accumulator entry (`values.pop().unwrap()` panics on an empty
accumulator: `none`), `+` and `-` push the operand and record the operator. -/
def pass1 (nums : List ℚ) : List Char → ℕ → List ℚ → List Char →
    Option (Except CalcError (List ℚ × List Char))
  | [], _, values, ops => some (.ok (values, ops))
  | op :: rest, i, values, ops =>
    if op == '*' then
      match values.getLast? with
      | none => none
      | some last =>
        match nums[i + 1]? with
        | none => none
        | some n => pass1 nums rest (i + 1) (values.dropLast ++ [last * n]) ops
    else if op == '/' then
      match values.getLast? with
      | none => none
      | some last =>
        match nums[i + 1]? with
        | none => none
        | some n =>
          if n = 0 then some (.error .divisionByZero)
          else pass1 nums rest (i + 1) (values.dropLast ++ [last / n]) ops
    else if op == '+' || op == '-' then
      match nums[i + 1]? with
      | none => none
      | some n => pass1 nums rest (i + 1) (values ++ [n]) (ops ++ [op])
    else some (.error (.unknownOperator op))

/-- Pass 2 of `evaluate` (src/lib.rs lines 143-150): fold the pending `+`/`-`
operators left to right over the accumulator entries, operator `i` against
`values[i+1]`. -/
def pass2 (values : List ℚ) : List Char → ℕ → ℚ → Option (Except CalcError ℚ)
  | [], _, result => some (.ok result)
  | op :: rest, i, result =>
    match values[i + 1]? with
    | none => none
    | some v =>
      if op == '+' then pass2 values rest (i + 1) (result + v)
      else if op == '-' then pass2 values rest (i + 1) (result - v)
      else some (.error (.unknownOperator op))

/-- `evaluate` (src/lib.rs lines 92-153): validate, tokenize, parse, check
counts, then the two precedence passes. -/
def evaluate (input : List Char) : Option (Except CalcError ℚ) :=
  if !validate_equation input then some (.error .invalidFormat)
  else
    let numbers := extract_numbers input
    let operators := extract_operators input
    match parseAll numbers with
    | .error e => some (.error e)
    | .ok nums =>
      if nums.isEmpty then some (.error .noNumbers)
      else if nums.length ≠ operators.length + 1 then some (.error .countMismatch)
      else
        match nums[0]? with
        | none => none
        | some first =>
          match pass1 nums operators 0 [first] [] with
          | none => none
          | some (.error e) => some (.error e)
          | some (.ok (values, ops)) =>
            match values[0]? with
            | none => none
            | some r0 => pass2 values ops 0 r0

/-! ### Character classes -/

theorem isOp_cases {c : Char} (h : isOp c = true) :
    c = '+' ∨ c = '-' ∨ c = '*' ∨ c = '/' := by
  simp only [isOp, Bool.or_eq_true, beq_iff_eq] at h
  tauto

theorem op_not_digit {c : Char} (h : isOp c = true) :
    (c.isDigit || c == '.') = false := by
  rcases isOp_cases h with rfl | rfl | rfl | rfl <;> rfl

theorem op_not_ws {c : Char} (h : isOp c = true) : isWS c = false := by
  rcases isOp_cases h with rfl | rfl | rfl | rfl <;> rfl

theorem ws_not_digit {c : Char} (h : isWS c = true) :
    (c.isDigit || c == '.') = false := by
  simp only [isWS, Bool.or_eq_true, beq_iff_eq] at h
  rcases h with ((((((((((((((((((((((((rfl | rfl) | rfl) | rfl) | rfl) | rfl) | rfl) | rfl) | rfl) | rfl) | rfl) | rfl) | rfl) | rfl) | rfl) | rfl) | rfl) | rfl) | rfl) | rfl) | rfl) | rfl) | rfl) | rfl) | rfl) <;> rfl

theorem ws_not_op {c : Char} (h : isWS c = true) : isOp c = false := by
  cases hop : isOp c
  · rfl
  · rw [op_not_ws hop] at h; cases h

/-! ### One-step unfolding of the validator loop -/

theorem validateLoop_nil (pd po vs : Bool) :
    validateLoop [] pd po vs = (vs && pd) := rfl

theorem validateLoop_digit {c : Char} (h : (c.isDigit || c == '.') = true)
    (rest : List Char) (pd po vs : Bool) :
    validateLoop (c :: rest) pd po vs = validateLoop rest true false (vs || po) := by
  simp [validateLoop, h]

theorem validateLoop_op {c : Char} (h : isOp c = true)
    (rest : List Char) (pd po vs : Bool) :
    validateLoop (c :: rest) pd po vs =
      if pd then validateLoop rest false true vs else false := by
  simp [validateLoop, op_not_digit h, h]

theorem validateLoop_ws {c : Char} (h : isWS c = true)
    (rest : List Char) (pd po vs : Bool) :
    validateLoop (c :: rest) pd po vs = validateLoop rest pd po vs := by
  simp [validateLoop, ws_not_digit h, ws_not_op h, h]

theorem validateLoop_other {c : Char} (h1 : (c.isDigit || c == '.') = false)
    (h2 : isOp c = false) (h3 : isWS c = false)
    (rest : List Char) (pd po vs : Bool) :
    validateLoop (c :: rest) pd po vs = false := by
  simp [validateLoop, h1, h2, h3]

/-! ### One-step unfolding of the number-extraction loop -/

theorem extractLoop_nil (cur : List Char) :
    extractLoop [] cur = if cur.isEmpty then [] else [cur] := rfl

theorem extractLoop_digit {c : Char} (h : (c.isDigit || c == '.') = true)
    (rest cur : List Char) :
    extractLoop (c :: rest) cur = extractLoop rest (cur ++ [c]) := by
  simp [extractLoop, h]

theorem extractLoop_nondigit {c : Char} (h : (c.isDigit || c == '.') = false)
    (rest cur : List Char) :
    extractLoop (c :: rest) cur =
      if cur.isEmpty then extractLoop rest cur else cur :: extractLoop rest [] := by
  simp [extractLoop, h]

/-! ### Concrete evaluations (claims C2, C3, C7, C10, and the C1/C4 instances) -/

/-- C2: `evaluate` applies multiplication before addition even when the
addition appears first left-to-right: `evaluate("3+5*2")` returns `Ok(13.0)`. -/
theorem precedence_mul_before_add :
    evaluate ("3+5*2".toList) = some (.ok 13) := by
  with_unfolding_all rfl

/-- C3: `evaluate` chains same-tier operators left to right:
`evaluate("10/2-3")` returns `Ok(2.0)`, i.e. `(10/2)-3`, not `10/(2-3)`. -/
theorem left_to_right_same_tier :
    evaluate ("10/2-3".toList) = some (.ok 2) := by
  with_unfolding_all rfl

/-- C7: a numeric run with several decimal points passes structural
validation but fails at numeric parsing: `validate_equation("1.2.3+4")` is
true and `evaluate("1.2.3+4")` is the `InvalidNumber` error (for the literal
`"1.2.3"`), not `InvalidFormat`. -/
theorem multi_dot_validates_then_invalid_number :
    validate_equation ("1.2.3+4".toList) = true ∧
    evaluate ("1.2.3+4".toList) = some (.error (.invalidNumber ("1.2.3".toList))) :=
  ⟨by decide, by with_unfolding_all rfl⟩

/-- C10: a number-token that is a lone dot is accepted by the validator:
`validate_equation("5+.")` is true, and `evaluate("5+.")` then returns the
`InvalidNumber` error for the literal `"."`, not `InvalidFormat`. -/
theorem lone_dot_validates_then_invalid_number :
    validate_equation ("5+.".toList) = true ∧
    evaluate ("5+.".toList) = some (.error (.invalidNumber (".".toList))) :=
  ⟨by decide, by with_unfolding_all rfl⟩

/-- C4: whenever pass 1 reaches a division whose right-hand operand is
exactly 0, it stops with the `DivisionByZero` error before performing the
division, whatever operators remain; in particular `evaluate("5/0")`
returns `Err(DivisionByZero)`. -/
theorem div_by_zero_short_circuits :
    (∀ (nums : List ℚ) (rest : List Char) (i : ℕ) (values : List ℚ)
        (ops : List Char) (last : ℚ),
        values.getLast? = some last → nums[i + 1]? = some 0 →
        pass1 nums ('/' :: rest) i values ops = some (.error .divisionByZero)) ∧
    evaluate ("5/0".toList) = some (.error .divisionByZero) := by
  constructor
  · intro nums rest i values ops last h1 h2
    simp [pass1, h1, h2]
  · with_unfolding_all rfl

/-- Witness for C4: the hypotheses of `div_by_zero_short_circuits` hold at
`nums = [5, 0]`, `values = [5]`, and pass 1 stops with `DivisionByZero`. -/
theorem div_by_zero_short_circuits_witness :
    [(5 : ℚ)].getLast? = some 5 ∧ [(5 : ℚ), 0][0 + 1]? = some 0 ∧
    pass1 [(5 : ℚ), 0] ['/'] 0 [(5 : ℚ)] [] = some (.error .divisionByZero) :=
  ⟨by with_unfolding_all rfl, by with_unfolding_all rfl,
    div_by_zero_short_circuits.1 [(5 : ℚ), 0] [] 0 [(5 : ℚ)] [] 5
      (by with_unfolding_all rfl) (by with_unfolding_all rfl)⟩

/-- Counterexample to C1 as stated: on `"5 5+3"` the validator answers true
(whitespace keeps the digit flag alive across the gap), yet
`extract_numbers` returns three tokens against one operator. -/
theorem token_count_counterexample :
    validate_equation ("5 5+3".toList) = true ∧
    (extract_numbers ("5 5+3".toList)).length ≠
      (extract_operators ("5 5+3".toList)).length + 1 :=
  ⟨by decide, by decide⟩

/-! ### C5: trailing operator -/

theorem validateLoop_lastOp :
    ∀ (l : List Char) (c : Char), l.getLast? = some c → isOp c = true →
      ∀ pd po vs : Bool, validateLoop l pd po vs = false := by
  intro l
  induction l with
  | nil => intro c hlast; cases hlast
  | cons a rest ih =>
    intro c hlast hop pd po vs
    cases rest with
    | nil =>
      have ha : a = c := by simpa [List.getLast?] using hlast
      subst ha
      rw [validateLoop_op hop]
      cases pd <;> simp [validateLoop_nil]
    | cons b t =>
      have hlast2 : (b :: t).getLast? = some c := by
        simpa [List.getLast?_cons_cons] using hlast
      cases h1 : (a.isDigit || a == '.') with
      | true => rw [validateLoop_digit h1]; exact ih c hlast2 hop true false (vs || po)
      | false =>
        cases h2 : isOp a with
        | true =>
          rw [validateLoop_op h2]
          cases pd
          · rfl
          · simpa using ih c hlast2 hop false true vs
        | false =>
          cases h3 : isWS a with
          | true => rw [validateLoop_ws h3]; exact ih c hlast2 hop pd po vs
          | false => exact validateLoop_other h1 h2 h3 _ pd po vs

/-- C5: for every input whose trimmed form ends with one of `+ - * /`,
`validate_equation` returns false (the final `prev_was_digit` flag is off,
or the scan already rejected); `is_valid("5+3+") == false` is the witness
instance. -/
theorem trailing_operator_rejected (s : List Char) (c : Char)
    (hlast : (trim s).getLast? = some c) (hop : isOp c = true) :
    validate_equation s = false := by
  simp only [validate_equation]
  split
  · rfl
  · exact validateLoop_lastOp (trim s) c hlast hop false false false

/-- Witness for C5 at the input `"5+3+"`. -/
theorem trailing_operator_rejected_witness :
    (trim ("5+3+".toList)).getLast? = some '+' ∧ isOp '+' = true ∧
    validate_equation ("5+3+".toList) = false :=
  ⟨by decide, by decide, trailing_operator_rejected _ '+' (by decide) (by decide)⟩

/-! ### C6: leading or doubled operator -/

theorem validateLoop_skip_ws :
    ∀ (ws l : List Char), (∀ w ∈ ws, isWS w = true) →
      ∀ pd po vs : Bool, validateLoop (ws ++ l) pd po vs = validateLoop l pd po vs := by
  intro ws
  induction ws with
  | nil => intro l _ pd po vs; rfl
  | cons w t ih =>
    intro l hws pd po vs
    rw [List.cons_append, validateLoop_ws (hws w (by simp))]
    exact ih l (fun x hx => hws x (by simp [hx])) pd po vs

theorem validateLoop_front_cases :
    ∀ (xs l : List Char) (pd po vs : Bool),
      validateLoop (xs ++ l) pd po vs = false ∨
      ∃ pd2 po2 vs2 : Bool, validateLoop (xs ++ l) pd po vs = validateLoop l pd2 po2 vs2 := by
  intro xs
  induction xs with
  | nil => intro l pd po vs; right; exact ⟨pd, po, vs, rfl⟩
  | cons a t ih =>
    intro l pd po vs
    rw [List.cons_append]
    cases h1 : (a.isDigit || a == '.') with
    | true => rw [validateLoop_digit h1]; exact ih l true false (vs || po)
    | false =>
      cases h2 : isOp a with
      | true =>
        rw [validateLoop_op h2]
        cases pd
        · left; rfl
        · simpa using ih l false true vs
      | false =>
        cases h3 : isWS a with
        | true => rw [validateLoop_ws h3]; exact ih l pd po vs
        | false => left; exact validateLoop_other h1 h2 h3 _ pd po vs

/-- C6: `validate_equation` returns false whenever an operator stands at the
start of the trimmed input or follows another operator with only whitespace
in between, and the scan rejects at the offending operator itself (first
conjunct: an operator met with the digit flag off yields false regardless
of the rest of the input). -/
theorem misplaced_operator_rejected :
    (∀ (c : Char) (rest : List Char) (po vs : Bool), isOp c = true →
        validateLoop (c :: rest) false po vs = false) ∧
    (∀ (s : List Char) (c : Char) (rest : List Char),
        trim s = c :: rest → isOp c = true → validate_equation s = false) ∧
    (∀ (s xs ws ys : List Char) (c1 c2 : Char),
        trim s = xs ++ c1 :: (ws ++ c2 :: ys) → isOp c1 = true → isOp c2 = true →
        (∀ w ∈ ws, isWS w = true) → validate_equation s = false) := by
  have hpoint : ∀ (c : Char) (rest : List Char) (po vs : Bool), isOp c = true →
      validateLoop (c :: rest) false po vs = false := by
    intro c rest po vs h
    rw [validateLoop_op h]
    rfl
  refine ⟨hpoint, ?_, ?_⟩
  · intro s c rest htrim hop
    simp only [validate_equation]
    split
    · rfl
    · rw [htrim]; exact hpoint c rest false false hop
  · intro s xs ws ys c1 c2 htrim hop1 hop2 hws
    simp only [validate_equation]
    split
    · rfl
    · rw [htrim]
      rcases validateLoop_front_cases xs (c1 :: (ws ++ c2 :: ys)) false false false with
        h | ⟨pd2, po2, vs2, h⟩
      · exact h
      · rw [h, validateLoop_op hop1]
        cases pd2
        · rfl
        · rw [if_pos rfl, validateLoop_skip_ws ws _ hws]
          exact hpoint c2 ys true vs2 hop2

/-- Witness for C6 at the inputs `"+5+3"` (leading operator) and `"5++3"`
(consecutive operators). -/
theorem misplaced_operator_rejected_witness :
    validate_equation ("+5+3".toList) = false ∧
    validate_equation ("5++3".toList) = false :=
  ⟨misplaced_operator_rejected.2.1 _ '+' ("5+3".toList) (by decide) (by decide),
   misplaced_operator_rejected.2.2 _ ['5'] [] ['3'] '+' '+' (by decide) (by decide)
     (by decide) (by simp)⟩

/-! ### C1: token-count invariant -/

theorem dropWhile_ws_eq_self (l : List Char) (h : ∀ c ∈ l, isWS c = false) :
    l.dropWhile isWS = l := by
  cases l with
  | nil => rfl
  | cons a t => simp [List.dropWhile_cons, h a (by simp)]

theorem trim_eq_self (s : List Char) (h : ∀ c ∈ s, isWS c = false) :
    trim s = s := by
  unfold trim
  rw [dropWhile_ws_eq_self s h,
    dropWhile_ws_eq_self s.reverse (fun c hc => h c (List.mem_reverse.mp hc)),
    List.reverse_reverse]

theorem count_invariant :
    ∀ s : List Char, (∀ c ∈ s, isWS c = false) → ∀ vs : Bool,
      (validateLoop s true false vs = true →
        ∀ cur : List Char, cur ≠ [] →
          (extractLoop s cur).length = (s.filter isOp).length + 1) ∧
      (validateLoop s false true vs = true →
        (extractLoop s []).length = (s.filter isOp).length + 1) ∧
      (validateLoop s false false vs = true →
        (extractLoop s []).length = (s.filter isOp).length + 1) := by
  intro s
  induction s with
  | nil =>
    intro _ vs
    refine ⟨?_, ?_, ?_⟩
    · intro _ cur hcur
      have hcur2 : cur.isEmpty = false := by
        cases cur
        · exact absurd rfl hcur
        · rfl
      simp [extractLoop_nil, hcur2]
    · intro h; simp [validateLoop_nil] at h
    · intro h; simp [validateLoop_nil] at h
  | cons a rest ih =>
    intro hws vs
    have hwa : isWS a = false := hws a (by simp)
    have hwr : ∀ c ∈ rest, isWS c = false := fun c hc => hws c (by simp [hc])
    cases h1 : (a.isDigit || a == '.') with
    | true =>
      have hop : isOp a = false := by
        cases h2 : isOp a
        · rfl
        · rw [op_not_digit h2] at h1; cases h1
      refine ⟨?_, ?_, ?_⟩
      · intro h cur hcur
        rw [validateLoop_digit h1] at h
        rw [extractLoop_digit h1]
        have := (ih hwr (vs || false)).1 h (cur ++ [a]) (by simp)
        simpa [List.filter_cons, hop] using this
      · intro h
        rw [validateLoop_digit h1] at h
        rw [extractLoop_digit h1]
        have := (ih hwr (vs || true)).1 h ([] ++ [a]) (by simp)
        simpa [List.filter_cons, hop] using this
      · intro h
        rw [validateLoop_digit h1] at h
        rw [extractLoop_digit h1]
        have := (ih hwr (vs || false)).1 h ([] ++ [a]) (by simp)
        simpa [List.filter_cons, hop] using this
    | false =>
      cases h2 : isOp a with
      | true =>
        refine ⟨?_, ?_, ?_⟩
        · intro h cur hcur
          rw [validateLoop_op h2, if_pos rfl] at h
          have hrec := (ih hwr vs).2.1 h
          have hcur2 : cur.isEmpty = false := by
            cases cur
            · exact absurd rfl hcur
            · rfl
          rw [extractLoop_nondigit h1, hcur2]
          simp only [Bool.false_eq_true, if_false, List.length_cons,
            List.filter_cons, h2, if_pos]
          omega
        · intro h
          rw [validateLoop_op h2] at h
          simp at h
        · intro h
          rw [validateLoop_op h2] at h
          simp at h
      | false =>
        refine ⟨?_, ?_, ?_⟩ <;> intro h <;>
          rw [validateLoop_other h1 h2 hwa] at h <;> cases h

/-- C1 as stated fails (see `token_count_counterexample`); amended claim:
for every whitespace-free input on which `validate_equation` returns true,
the number of tokens returned by `extract_numbers` equals the number of
tokens returned by `extract_operators` plus one.  (Whitespace between two
digit runs splits one number into several while validation still passes.) -/
theorem token_count_of_valid_no_ws (s : List Char)
    (hws : ∀ c ∈ s, isWS c = false) (hv : validate_equation s = true) :
    (extract_numbers s).length = (extract_operators s).length + 1 := by
  rw [validate_equation, trim_eq_self s hws] at hv
  split at hv
  · cases hv
  · exact (count_invariant s hws false).2.2 hv

/-- Witness for the amended C1 at the whitespace-free input `"5+3"`. -/
theorem token_count_of_valid_no_ws_witness :
    (∀ c ∈ ("5+3".toList), isWS c = false) ∧
    validate_equation ("5+3".toList) = true ∧
    (extract_numbers ("5+3".toList)).length = (extract_operators ("5+3".toList)).length + 1 :=
  ⟨by decide, by decide, token_count_of_valid_no_ws _ (by decide) (by decide)⟩

/-! ### C8: the NoNumbers branch is unreachable -/

theorem parseAll_length :
    ∀ (l : List (List Char)) (nums : List ℚ), parseAll l = .ok nums →
      nums.length = l.length := by
  intro l
  induction l with
  | nil => intro nums h; cases h; rfl
  | cons s rest ih =>
    intro nums h
    simp only [parseAll] at h
    cases hp : parseF64 s with
    | none => rw [hp] at h; cases h
    | some n =>
      rw [hp] at h
      cases hr : parseAll rest with
      | error e => rw [hr] at h; cases h
      | ok ns =>
        rw [hr] at h
        cases h
        simp [ih ns hr]

theorem parseAll_error_invalidNumber :
    ∀ (l : List (List Char)) (e : CalcError), parseAll l = .error e →
      ∃ t, e = .invalidNumber t := by
  intro l
  induction l with
  | nil => intro e h; cases h
  | cons s rest ih =>
    intro e h
    simp only [parseAll] at h
    cases hp : parseF64 s with
    | none => rw [hp] at h; cases h; exact ⟨s, rfl⟩
    | some n =>
      rw [hp] at h
      cases hr : parseAll rest with
      | error e2 => rw [hr] at h; cases h; exact ih e hr
      | ok ns => rw [hr] at h; cases h

theorem extractLoop_ne_nil :
    ∀ (s cur : List Char),
      (s.any (fun c => c.isDigit || c == '.') = true ∨ cur ≠ []) →
      extractLoop s cur ≠ [] := by
  intro s
  induction s with
  | nil =>
    intro cur h
    rcases h with h | h
    · simp at h
    · have hcur2 : cur.isEmpty = false := by
        cases cur
        · exact absurd rfl h
        · rfl
      simp [extractLoop_nil, hcur2]
  | cons c rest ih =>
    intro cur h
    cases h1 : (c.isDigit || c == '.') with
    | true =>
      rw [extractLoop_digit h1]
      exact ih (cur ++ [c]) (Or.inr (by simp))
    | false =>
      rw [extractLoop_nondigit h1]
      cases hcur : cur.isEmpty with
      | true =>
        have hcurnil : cur = [] := by
          cases cur
          · rfl
          · cases hcur
        subst hcurnil
        rcases h with h | h
        · have hrest : rest.any (fun x => x.isDigit || x == '.') = true := by
            simpa [List.any_cons, h1] using h
          simpa using ih [] (Or.inl hrest)
        · exact absurd rfl h
      | false =>
        simp only [hcur, Bool.false_eq_true, if_false]
        intro hc
        cases hc

theorem trim_sublist (s : List Char) : List.Sublist (trim s) s := by
  have h1 : List.Sublist (s.dropWhile isWS) s := (s.dropWhile_suffix isWS).sublist
  have h2 : List.Sublist ((s.dropWhile isWS).reverse.dropWhile isWS)
      (s.dropWhile isWS).reverse :=
    ((s.dropWhile isWS).reverse.dropWhile_suffix isWS).sublist
  have h3 : List.Sublist (trim s) (s.dropWhile isWS).reverse.reverse := h2.reverse
  rw [List.reverse_reverse] at h3
  exact h3.trans h1

theorem any_digit_of_validate (s : List Char) (h : validate_equation s = true) :
    s.any Char.isDigit = true := by
  rw [validate_equation] at h
  split at h
  · cases h
  · rename_i hcond
    have hd : (trim s).any Char.isDigit = true := by
      by_contra hdc
      apply hcond
      rw [Bool.not_eq_true] at hdc
      simp [hdc]
    rw [List.any_eq_true] at hd ⊢
    obtain ⟨c, hc, hdig⟩ := hd
    exact ⟨c, (trim_sublist s).subset hc, hdig⟩

theorem extract_numbers_ne_nil (s : List Char) (h : s.any Char.isDigit = true) :
    extract_numbers s ≠ [] := by
  apply extractLoop_ne_nil s []
  left
  rw [List.any_eq_true] at h ⊢
  obtain ⟨c, hc, hdig⟩ := h
  exact ⟨c, hc, by simp [hdig]⟩

theorem pass1_ne_noNumbers :
    ∀ (opsIn : List Char) (nums : List ℚ) (i : ℕ) (values : List ℚ) (ops : List Char),
      pass1 nums opsIn i values ops ≠ some (.error .noNumbers) := by
  intro opsIn
  induction opsIn with
  | nil => intro nums i values ops h; cases h
  | cons op rest ih =>
    intro nums i values ops h
    simp only [pass1] at h
    repeat' split at h
    all_goals first
      | cases h
      | exact ih _ _ _ _ h

theorem pass2_ne_noNumbers :
    ∀ (ops : List Char) (values : List ℚ) (i : ℕ) (r : ℚ),
      pass2 values ops i r ≠ some (.error .noNumbers) := by
  intro ops
  induction ops with
  | nil => intro values i r h; cases h
  | cons op rest ih =>
    intro values i r h
    simp only [pass2] at h
    repeat' split at h
    all_goals first
      | cases h
      | exact ih _ _ _ h

/-- C8: the `NoNumbers` error branch of `evaluate` is unreachable — for
every input string, `evaluate` never returns `Err(NoNumbers)`, because
validation runs first and guarantees a digit, so `extract_numbers` (and
hence the parsed list) is non-empty. -/
theorem no_numbers_unreachable (s : List Char) :
    evaluate s ≠ some (.error .noNumbers) := by
  intro h
  rw [evaluate] at h
  cases hval : validate_equation s with
  | false => rw [hval] at h; cases h
  | true =>
    rw [hval] at h
    simp only [Bool.not_true, Bool.false_eq_true, if_false] at h
    cases hp : parseAll (extract_numbers s) with
    | error e =>
      simp only [hp] at h
      obtain ⟨t, rfl⟩ := parseAll_error_invalidNumber _ e hp
      cases h
    | ok nums =>
      simp only [hp] at h
      have hne : nums ≠ [] := by
        intro hnil
        have hlen := parseAll_length _ _ hp
        rw [hnil] at hlen
        exact extract_numbers_ne_nil s (any_digit_of_validate s hval)
          (List.eq_nil_of_length_eq_zero hlen.symm)
      have hempty : nums.isEmpty = false := by
        cases nums
        · exact absurd rfl hne
        · rfl
      rw [hempty] at h
      simp only [Bool.false_eq_true, if_false] at h
      by_cases hc : nums.length = (extract_operators s).length + 1
      · rw [if_neg (by simp [hc])] at h
        cases h0 : nums[0]? with
        | none => simp only [h0] at h; cases h
        | some first =>
          simp only [h0] at h
          cases hpp : pass1 nums (extract_operators s) 0 [first] [] with
          | none => simp only [hpp] at h; cases h
          | some r =>
            simp only [hpp] at h
            cases r with
            | error e =>
              cases h
              exact pass1_ne_noNumbers _ _ _ _ _ hpp
            | ok vo =>
              obtain ⟨values, ops⟩ := vo
              cases hv0 : values[0]? with
              | none => simp only [hv0] at h; cases h
              | some r0 =>
                simp only [hv0] at h
                exact pass2_ne_noNumbers _ _ _ _ h
      · rw [if_pos (by simp [hc])] at h
        cases h

/-- Witness for C8 at the input `"5+3"`. -/
theorem no_numbers_unreachable_witness :
    evaluate ("5+3".toList) ≠ some (.error .noNumbers) :=
  no_numbers_unreachable ("5+3".toList)

/-! ### C9: evaluate is total (no panic site is reachable) -/

theorem getLast?_some_of_ne_nil {α : Type} (l : List α) (h : l ≠ []) :
    ∃ x, l.getLast? = some x := by
  cases l with
  | nil => exact absurd rfl h
  | cons a t => exact ⟨(a :: t).getLast (by simp), List.getLast?_eq_getLast _ (by simp)⟩

theorem pass1_mul (nums : List ℚ) (rest : List Char) (i : ℕ) (values : List ℚ)
    (ops : List Char) (last n : ℚ)
    (hlast : values.getLast? = some last) (hnum : nums[i + 1]? = some n) :
    pass1 nums ('*' :: rest) i values ops =
      pass1 nums rest (i + 1) (values.dropLast ++ [last * n]) ops := by
  simp [pass1, hlast, hnum]

theorem pass1_div (nums : List ℚ) (rest : List Char) (i : ℕ) (values : List ℚ)
    (ops : List Char) (last n : ℚ)
    (hlast : values.getLast? = some last) (hnum : nums[i + 1]? = some n) :
    pass1 nums ('/' :: rest) i values ops =
      if n = 0 then some (.error .divisionByZero)
      else pass1 nums rest (i + 1) (values.dropLast ++ [last / n]) ops := by
  simp [pass1, hlast, hnum]

theorem pass1_addsub (nums : List ℚ) (op : Char) (rest : List Char) (i : ℕ)
    (values : List ℚ) (ops : List Char) (n : ℚ)
    (hop : op = '+' ∨ op = '-') (hnum : nums[i + 1]? = some n) :
    pass1 nums (op :: rest) i values ops =
      pass1 nums rest (i + 1) (values ++ [n]) (ops ++ [op]) := by
  rcases hop with rfl | rfl <;> simp [pass1, hnum]

theorem pass1_unknown (nums : List ℚ) (op : Char) (rest : List Char) (i : ℕ)
    (values : List ℚ) (ops : List Char)
    (h1 : op ≠ '*') (h2 : op ≠ '/') (h3 : op ≠ '+') (h4 : op ≠ '-') :
    pass1 nums (op :: rest) i values ops = some (.error (.unknownOperator op)) := by
  simp [pass1, h1, h2, h3, h4]

theorem pass1_total :
    ∀ (opsIn : List Char) (nums : List ℚ) (i : ℕ) (values : List ℚ) (ops : List Char),
      values.length = ops.length + 1 →
      nums.length = i + opsIn.length + 1 →
      (∃ e, pass1 nums opsIn i values ops = some (.error e)) ∨
      (∃ v o, pass1 nums opsIn i values ops = some (.ok (v, o)) ∧
        v.length = o.length + 1) := by
  intro opsIn
  induction opsIn with
  | nil =>
    intro nums i values ops hv _
    right
    exact ⟨values, ops, rfl, hv⟩
  | cons op rest ih =>
    intro nums i values ops hv hn
    have hvne : values ≠ [] := by
      intro hnil
      rw [hnil] at hv
      cases hv
    have hpos : 0 < values.length := List.length_pos.mpr hvne
    obtain ⟨last, hlast⟩ := getLast?_some_of_ne_nil values hvne
    have hidx : i + 1 < nums.length := by
      simp only [List.length_cons] at hn
      omega
    obtain ⟨n, hnum⟩ : ∃ n, nums[i + 1]? = some n := ⟨_, List.getElem?_eq_getElem hidx⟩
    have hn2 : nums.length = (i + 1) + rest.length + 1 := by
      simp only [List.length_cons] at hn
      omega
    by_cases b1 : op = '*'
    · subst b1
      rw [pass1_mul nums rest i values ops last n hlast hnum]
      apply ih nums (i + 1) _ ops _ hn2
      simp only [List.length_append, List.length_dropLast, List.length_cons,
        List.length_nil]
      omega
    · by_cases b2 : op = '/'
      · subst b2
        rw [pass1_div nums rest i values ops last n hlast hnum]
        by_cases hz : n = 0
        · left
          exact ⟨.divisionByZero, by rw [if_pos hz]⟩
        · rw [if_neg hz]
          apply ih nums (i + 1) _ ops _ hn2
          simp only [List.length_append, List.length_dropLast, List.length_cons,
            List.length_nil]
          omega
      · by_cases b3 : op = '+' ∨ op = '-'
        · rw [pass1_addsub nums op rest i values ops n b3 hnum]
          apply ih nums (i + 1) _ _ _ hn2
          simp only [List.length_append, List.length_cons, List.length_nil]
          omega
        · push_neg at b3
          left
          exact ⟨.unknownOperator op,
            pass1_unknown nums op rest i values ops b1 b2 b3.1 b3.2⟩

theorem pass2_total :
    ∀ (ops : List Char) (values : List ℚ) (i : ℕ) (r : ℚ),
      i + ops.length + 1 ≤ values.length → pass2 values ops i r ≠ none := by
  intro ops
  induction ops with
  | nil =>
    intro values i r _ h
    cases h
  | cons op rest ih =>
    intro values i r hlen h
    have hidx : i + 1 < values.length := by
      simp only [List.length_cons] at hlen
      omega
    obtain ⟨v, hv⟩ : ∃ v, values[i + 1]? = some v := ⟨_, List.getElem?_eq_getElem hidx⟩
    simp only [pass2, hv] at h
    have hlen2 : (i + 1) + rest.length + 1 ≤ values.length := by
      simp only [List.length_cons] at hlen
      omega
    by_cases b1 : op = '+'
    · subst b1
      simp at h
      exact ih values (i + 1) (r + v) hlen2 h
    · by_cases b2 : op = '-'
      · subst b2
        simp at h
        exact ih values (i + 1) (r - v) hlen2 h
      · simp [b1, b2] at h

/-- C9: `evaluate` is total and never panics: the accumulator of pass 1 is
never empty when popped, and every indexed access (`nums[0]`, `nums[i+1]`,
`values[0]`, `values[i+1]`) is in bounds after the count-mismatch check, so
the `none` (panic) outcome of the model is unreachable for every input. -/
theorem evaluate_never_panics (s : List Char) : evaluate s ≠ none := by
  intro h
  rw [evaluate] at h
  cases hval : validate_equation s with
  | false => rw [hval] at h; cases h
  | true =>
    rw [hval] at h
    simp only [Bool.not_true, Bool.false_eq_true, if_false] at h
    cases hp : parseAll (extract_numbers s) with
    | error e => simp only [hp] at h; cases h
    | ok nums =>
      simp only [hp] at h
      cases hemp : nums.isEmpty with
      | true => rw [hemp] at h; simp only [if_pos rfl] at h; cases h
      | false =>
        rw [hemp] at h
        simp only [Bool.false_eq_true, if_false] at h
        by_cases hc : nums.length = (extract_operators s).length + 1
        · rw [if_neg (by simp [hc])] at h
          have hne : nums ≠ [] := by
            intro hnil
            rw [hnil] at hemp
            cases hemp
          obtain ⟨first, h0⟩ : ∃ x, nums[0]? = some x :=
            ⟨_, List.getElem?_eq_getElem (List.length_pos.mpr hne)⟩
          simp only [h0] at h
          have hlen : nums.length = 0 + (extract_operators s).length + 1 := by omega
          rcases pass1_total (extract_operators s) nums 0 [first] [] (by simp) hlen with
            ⟨e, he⟩ | ⟨v, o, hvo, hl⟩
          · simp only [he] at h
            cases h
          · simp only [hvo] at h
            have hvne : v ≠ [] := by
              intro hnil
              rw [hnil] at hl
              cases hl
            obtain ⟨r0, hv0⟩ : ∃ x, v[0]? = some x :=
              ⟨_, List.getElem?_eq_getElem (List.length_pos.mpr hvne)⟩
            simp only [hv0] at h
            exact pass2_total o v 0 r0 (by omega) h
        · rw [if_pos (by simp [hc])] at h
          cases h

/-- Witness for C9 at the input `"3 + 5 * 2"`. -/
theorem evaluate_never_panics_witness :
    evaluate ("3 + 5 * 2".toList) ≠ none :=
  evaluate_never_panics ("3 + 5 * 2".toList)

end RustyCalc
